import Mathlib

/-!
Verification of the indicator-playground core: a shallow embedding, over `ℚ`,
of the indicator engine (`sma`, `ema`, `rsi`, `macd` from `src/unnamed/part_000`),
the synthetic bar generator (`src/lib/gbm.ts`), the aggregator and the
edit-propagation engine (`src/components/IndicatorPlayground.tsx`), together
with theorems settling the specification's claims about them.

JavaScript numbers are embedded as rationals (the claims are statements of
exact real arithmetic); `null`/`undefined` entries of indicator arrays are
embedded as `Option ℚ` with `none` for `null`.
-/

namespace IndicatorPlayground

/-- JS array indexing `a[i]` on an `Array<number | null>`: out-of-range access
yields `undefined`, which the source code treats exactly like `null`. -/
def jsGet (l : List (Option ℚ)) (i : ℕ) : Option ℚ :=
  (l.get? i).getD none

/-! ### `sma` (src/unnamed/part_000, lines 4-14)

The source keeps a rolling `sum`: at step `i` it adds `values[i]`, subtracts
`values[i - period]` once `i >= period`, and emits `sum / period` once
`i >= period - 1`.  The recursion below walks the suffix of `values` that
starts at index `i`, keeping the full list at hand for the `values[i - period]`
lookup. -/

def smaGo (period : ℕ) (values : List ℚ) : ℕ → ℚ → List ℚ → List (Option ℚ)
  | _, _, [] => []
  | i, sum, x :: xs =>
    let sum1 := sum + x
    let sum2 := if period ≤ i then sum1 - values.getD (i - period) 0 else sum1
    (if period - 1 ≤ i then some (sum2 / period) else none) ::
      smaGo period values (i + 1) sum2 xs

def sma (values : List ℚ) (period : ℕ) : List (Option ℚ) :=
  if period = 0 then values.map fun _ => none
  else smaGo period values 0 0 values

/-! ### `ema` (src/unnamed/part_000, lines 16-35)

Two phases: while `prev == null` the source waits for `i ≥ period - 1` and then
seeds `prev` with the window sum `values[i-(period-1)] + ... + values[i]`
divided by `period`; afterwards it iterates
`prev = values[i]*k + prev*(1-k)`. -/

def emaGoSome (k : ℚ) : ℚ → List ℚ → List (Option ℚ)
  | _, [] => []
  | prev, x :: xs =>
    some (x * k + prev * (1 - k)) :: emaGoSome k (x * k + prev * (1 - k)) xs

def emaGoNone (period : ℕ) (k : ℚ) (values : List ℚ) : ℕ → List ℚ → List (Option ℚ)
  | _, [] => []
  | i, _ :: xs =>
    if period - 1 ≤ i then
      let s := ((values.drop (i + 1 - period)).take period).sum / period
      some s :: emaGoSome k s xs
    else none :: emaGoNone period k values (i + 1) xs

def ema (values : List ℚ) (period : ℕ) : List (Option ℚ) :=
  if period = 0 then values.map fun _ => none
  else emaGoNone period (2 / (period + 1)) values 0 values

/-! ### `rsi` (src/unnamed/part_000, lines 37-83)

The source runs two loops; the first only fills `res[period]`, and the second
loop recomputes that same value from identical accumulator state before
overwriting it, so the function is equivalent to its second loop, embedded
here.  `rsiVal` is the shared `rs`/`100 - 100/(1+rs)` computation, including
the `avgLoss === 0 ? 100 : ...` replacement of `rs` by the constant `100`. -/

def rsiVal (avgGain avgLoss : ℚ) : ℚ :=
  let rs := if avgLoss = 0 then 100 else avgGain / avgLoss
  100 - 100 / (1 + rs)

def rsiGo (period : ℕ) : ℚ → List ℚ → ℕ → ℚ → ℚ → ℚ → ℚ → List (Option ℚ)
  | _, [], _, _, _, _, _ => []
  | prev, x :: xs, i, gain, loss, avgGain, avgLoss =>
    let change := x - prev
    let up := max 0 change
    let down := max 0 (-change)
    if i ≤ period then
      let gain1 := gain + up
      let loss1 := loss + down
      if i = period then
        let aG := gain1 / period
        let aL := loss1 / period
        some (rsiVal aG aL) :: rsiGo period x xs (i + 1) gain1 loss1 aG aL
      else
        none :: rsiGo period x xs (i + 1) gain1 loss1 avgGain avgLoss
    else
      let aG := (avgGain * ((period : ℚ) - 1) + up) / period
      let aL := (avgLoss * ((period : ℚ) - 1) + down) / period
      some (rsiVal aG aL) :: rsiGo period x xs (i + 1) gain loss aG aL

def rsi (values : List ℚ) (period : ℕ) : List (Option ℚ) :=
  if period = 0 then values.map fun _ => none
  else
    match values with
    | [] => []
    | v :: vs => none :: rsiGo period v vs 1 0 0 0 0

/-! ### `macd` (src/unnamed/part_000, lines 85-96)

The source maps defined trend entries through an `NaN` round-trip
(`null → NaN → 0`) before smoothing; over the rationals that composition is
exactly "substitute `0` for `null`", i.e. `Option.getD 0`. -/

structure MACDRes where
  macd : List (Option ℚ)
  signal : List (Option ℚ)
  hist : List (Option ℚ)

def macd (values : List ℚ) (fast slow signalPeriod : ℕ) : MACDRes :=
  let emaFast := ema values fast
  let emaSlow := ema values slow
  let macdArr := (List.range values.length).map fun i =>
    match jsGet emaFast i, jsGet emaSlow i with
    | some a, some b => some (a - b)
    | _, _ => none
  let signalArr := ema (macdArr.map fun v => v.getD 0) signalPeriod
  let signal := (List.range values.length).map fun i =>
    match jsGet macdArr i with
    | none => none
    | some _ => jsGet signalArr i
  let hist := (List.range values.length).map fun i =>
    match jsGet macdArr i, jsGet signal i with
    | some v, some s => some (v - s)
    | _, _ => none
  ⟨macdArr, signal, hist⟩

/-! ### Lemmas about `rsi` -/

/-- The `100 - 100/(1+rs)` formula applied with zero average loss yields the
constant `100 - 100/101`, because the source replaces `rs` by `100` there. -/
lemma rsiVal_avgLoss_zero (avgGain : ℚ) : rsiVal avgGain 0 = 100 - 100 / 101 := by
  norm_num [rsiVal]

/-- On nonnegative average gain and loss, the returned index value lies in
`[0, 100)`. -/
lemma rsiVal_mem_Ico (aG aL : ℚ) (hg : 0 ≤ aG) (hl : 0 ≤ aL) :
    0 ≤ rsiVal aG aL ∧ rsiVal aG aL < 100 := by
  unfold rsiVal
  split
  · norm_num
  · rename_i hne
    have hlpos : 0 < aL := lt_of_le_of_ne hl (Ne.symm hne)
    have hrs : 0 ≤ aG / aL := div_nonneg hg hl
    have h1 : (0:ℚ) < 1 + aG / aL := by linarith
    have h2 : 0 < 100 / (1 + aG / aL) := by positivity
    have h3 : 100 / (1 + aG / aL) ≤ 100 / 1 := by
      apply div_le_div_of_nonneg_left (by norm_num) (by norm_num) _
      linarith
    constructor <;> [linarith [h3]; linarith [h2]]

/-- On a strictly increasing tail every per-step loss is `0`, so the running
loss and the averaged loss stay `0` and every emitted value is
`100 - 100/101`. -/
lemma rsiGo_chain_lt (period : ℕ) (rest : List ℚ) :
    ∀ (prev : ℚ) (i : ℕ) (gain avgGain : ℚ),
      List.Chain' (· < ·) (prev :: rest) →
      ∀ j v, (rsiGo period prev rest i gain 0 avgGain 0).get? j = some (some v) →
        v = 100 - 100 / 101 := by
  induction rest with
  | nil => intro prev i gain avgGain _ j v h; simp [rsiGo] at h
  | cons x xs ih =>
    intro prev i gain avgGain hch j v h
    rw [List.chain'_cons] at hch
    obtain ⟨hlt, hch'⟩ := hch
    have hdown : max 0 (-(x - prev)) = 0 := max_eq_left (by linarith)
    simp only [rsiGo, hdown, add_zero, zero_add, zero_div, zero_mul] at h
    split at h
    · split at h
      · cases j with
        | zero =>
          simp only [List.get?_cons_zero, Option.some.injEq] at h
          rw [← h]; exact rsiVal_avgLoss_zero _
        | succ j =>
          simp only [List.get?_cons_succ] at h
          exact ih x (i + 1) (gain + max 0 (x - prev)) _ hch' j v h
      · cases j with
        | zero => simp at h
        | succ j =>
          simp only [List.get?_cons_succ] at h
          exact ih x (i + 1) (gain + max 0 (x - prev)) avgGain hch' j v h
    · cases j with
      | zero =>
        simp only [List.get?_cons_zero, Option.some.injEq] at h
        rw [← h]; exact rsiVal_avgLoss_zero _
      | succ j =>
        simp only [List.get?_cons_succ] at h
        exact ih x (i + 1) gain _ hch' j v h

/-- All four accumulators stay nonnegative, so every emitted value lies in
`[0, 100)`. -/
lemma rsiGo_mem_Ico (period : ℕ) (hp : 1 ≤ period) (rest : List ℚ) :
    ∀ (prev : ℚ) (i : ℕ) (gain loss avgGain avgLoss : ℚ),
      0 ≤ gain → 0 ≤ loss → 0 ≤ avgGain → 0 ≤ avgLoss →
      ∀ j v, (rsiGo period prev rest i gain loss avgGain avgLoss).get? j = some (some v) →
        0 ≤ v ∧ v < 100 := by
  induction rest with
  | nil => intro prev i gain loss avgGain avgLoss _ _ _ _ j v h; simp [rsiGo] at h
  | cons x xs ih =>
    intro prev i gain loss avgGain avgLoss hg hl hag hal j v h
    have hup : (0:ℚ) ≤ max 0 (x - prev) := le_max_left _ _
    have hdn : (0:ℚ) ≤ max 0 (-(x - prev)) := le_max_left _ _
    have hpq : (0:ℚ) ≤ (period : ℚ) := by positivity
    have hpm : (0:ℚ) ≤ (period : ℚ) - 1 := by
      have : (1:ℚ) ≤ (period : ℚ) := by exact_mod_cast hp
      linarith
    simp only [rsiGo] at h
    split at h
    · split at h
      · cases j with
        | zero =>
          simp only [List.get?_cons_zero, Option.some.injEq] at h
          rw [← h]
          exact rsiVal_mem_Ico _ _ (div_nonneg (by linarith) hpq)
            (div_nonneg (by linarith) hpq)
        | succ j =>
          simp only [List.get?_cons_succ] at h
          exact ih x (i + 1) _ _ _ _ (by linarith) (by linarith)
            (div_nonneg (by linarith) hpq) (div_nonneg (by linarith) hpq) j v h
      · cases j with
        | zero => simp at h
        | succ j =>
          simp only [List.get?_cons_succ] at h
          exact ih x (i + 1) _ _ _ _ (by linarith) (by linarith) hag hal j v h
    · cases j with
      | zero =>
        simp only [List.get?_cons_zero, Option.some.injEq] at h
        rw [← h]
        refine rsiVal_mem_Ico _ _ ?_ ?_ <;>
          exact div_nonneg (by nlinarith [mul_nonneg hag hpm, mul_nonneg hal hpm]) hpq
      | succ j =>
        simp only [List.get?_cons_succ] at h
        exact ih x (i + 1) _ _ _ _ hg hl
          (div_nonneg (by nlinarith [mul_nonneg hag hpm]) hpq)
          (div_nonneg (by nlinarith [mul_nonneg hal hpm]) hpq) j v h

/-- **C1 (counterexample).** The claim says every defined index value of the
relative-strength index with zero average loss — in particular on a strictly
increasing price sequence — equals exactly `100`.  On the strictly increasing
prices `[1, 2, 3]` with period `1`, the first defined value is
`10000/101 ≈ 99.0099`, not `100`: the source replaces `rs` by the constant
`100` when `avgLoss == 0`, making the output `100 - 100/101`. -/
theorem rsi_avgLoss_zero_counterexample :
    (rsi [1, 2, 3] 1).get? 1 = some (some (10000 / 101)) ∧ (10000 : ℚ) / 101 ≠ 100 := by
  constructor
  · norm_num [rsi, rsiGo, rsiVal]
  · norm_num

/-- **C1 (amended).** At every defined index of the relative-strength index
where the average loss is zero the value equals `100 - 100/101` (not `100`):
in particular this holds at every defined index on a strictly increasing price
sequence, for every period `p ≥ 1`. -/
theorem rsi_avgLoss_zero_value (values : List ℚ) (p : ℕ) (hp : 1 ≤ p)
    (hmono : values.Chain' (· < ·)) :
    (∀ avgGain : ℚ, rsiVal avgGain 0 = 100 - 100 / 101) ∧
    ∀ j v, (rsi values p).get? j = some (some v) → v = 100 - 100 / 101 := by
  refine ⟨rsiVal_avgLoss_zero, ?_⟩
  intro j v h
  simp only [rsi] at h
  rw [if_neg (by omega : ¬ p = 0)] at h
  cases values with
  | nil => simp at h
  | cons w ws =>
    cases j with
    | zero => simp at h
    | succ j =>
      exact rsiGo_chain_lt p ws w 1 0 0 hmono j v (by simpa using h)

/-- Witness for `rsi_avgLoss_zero_value` at prices `[1, 2]`, period `1`. -/
theorem rsi_avgLoss_zero_value_witness : (10000 : ℚ) / 101 = 100 - 100 / 101 :=
  (rsi_avgLoss_zero_value [1, 2] 1 (by norm_num)
      (List.chain'_cons.2 ⟨by norm_num, List.chain'_singleton 2⟩)).2 1 (10000 / 101)
    (by norm_num [rsi, rsiGo, rsiVal])

/-- **C9 (counterexample).** The claim says every defined relative-strength
value is bounded above by `100 - 100/101`.  On prices `[0, 1000, 999]` with
period `2` the seeded value is `100 - 100/1001 = 100000/1001 ≈ 99.9`, which
exceeds `100 - 100/101 ≈ 99.0099` (a tiny but nonzero average loss makes `rs`
exceed the constant `100` used when the loss is zero). -/
theorem rsi_range_counterexample :
    (rsi [0, 1000, 999] 2).get? 2 = some (some (100000 / 1001)) ∧
      ¬ (100000 : ℚ) / 1001 ≤ 100 - 100 / 101 := by
  constructor
  · norm_num [rsi, rsiGo, rsiVal]
  · norm_num

/-- **C9 (amended).** For every price sequence and period `p ≥ 1`, every
defined value of the relative-strength index lies in `[0, 100)`; the upper
bound `100` is strict but values are not bounded by `100 - 100/101` (they only
are when the average loss is zero, where the value is exactly `100 - 100/101`),
and the value is `0` when the average gain is zero and the average loss is
not. -/
theorem rsi_range (values : List ℚ) (p : ℕ) (hp : 1 ≤ p) :
    ∀ j v, (rsi values p).get? j = some (some v) → 0 ≤ v ∧ v < 100 := by
  intro j v h
  simp only [rsi] at h
  rw [if_neg (by omega : ¬ p = 0)] at h
  cases values with
  | nil => simp at h
  | cons w ws =>
    cases j with
    | zero => simp at h
    | succ j =>
      exact rsiGo_mem_Ico p hp ws w 1 0 0 0 0 le_rfl le_rfl le_rfl le_rfl j v
        (by simpa using h)

/-- Witness for `rsi_range` at prices `[2, 3]`, period `1`. -/
theorem rsi_range_witness : 0 ≤ (10000 : ℚ) / 101 ∧ (10000 : ℚ) / 101 < 100 :=
  rsi_range [2, 3] 1 (by norm_num) 1 (10000 / 101) (by norm_num [rsi, rsiGo, rsiVal])

/-! ### Lemmas about `ema` and `sma` -/

/-- Closed form of the exponential average: the seed value (the mean of the
first `period` inputs) up to index `period - 1`, then the smoothing
recurrence. -/
def emaRef (values : List ℚ) (period : ℕ) (k : ℚ) : ℕ → ℚ
  | j =>
    if j ≤ period - 1 then (values.take period).sum / period
    else values.getD j 0 * k + emaRef values period k (j - 1) * (1 - k)
  termination_by j => j
  decreasing_by simp_wf; omega

lemma emaGoSome_eq_map (k : ℚ) (values : List ℚ) (p : ℕ) (hp : 1 ≤ p) :
    ∀ (xs : List ℚ) (i : ℕ) (a : ℚ), xs = values.drop (i + 1) → p - 1 ≤ i →
      a = emaRef values p k i →
      emaGoSome k a xs =
        (List.range xs.length).map (fun m => some (emaRef values p k (i + 1 + m))) := by
  intro xs
  induction xs with
  | nil => intro i a _ _ _; simp [emaGoSome]
  | cons x xs ih =>
    intro i a hdrop hi ha
    have hget : values.get? (i + 1) = some x := by
      have := List.get?_drop values (i + 1) 0
      rw [← hdrop] at this
      simpa using this.symm
    have hxs : xs = values.drop (i + 1 + 1) := by
      have : (values.drop (i + 1)).tail = values.drop (i + 1 + 1) := by
        rw [List.tail_drop]
      rw [← hdrop] at this
      simpa using this
    have href : emaRef values p k (i + 1) = x * k + a * (1 - k) := by
      rw [emaRef]
      rw [if_neg (by omega : ¬ i + 1 ≤ p - 1)]
      have hgd : values.getD (i + 1) 0 = x := by
        rw [List.getD_eq_getD_get?, hget]; rfl
      rw [hgd, Nat.add_sub_cancel, ha]
    simp only [List.length_cons, List.range_succ_eq_map, List.map_cons, List.map_map,
      Nat.add_zero]
    simp only [emaGoSome]
    congr 1
    · rw [href]
    · rw [ih (i + 1) (x * k + a * (1 - k)) hxs (by omega) href.symm]
      apply List.map_congr_left
      intro m _
      simp only [Function.comp_apply, Nat.succ_eq_add_one]
      have hm : i + 1 + 1 + m = i + 1 + (m + 1) := by omega
      rw [hm]

lemma emaGoNone_eq_map (k : ℚ) (values : List ℚ) (p : ℕ) (hp : 1 ≤ p) :
    ∀ (rest : List ℚ) (i : ℕ), rest = values.drop i → i ≤ p - 1 →
      emaGoNone p k values i rest =
        (List.range rest.length).map
          (fun m => if i + m < p - 1 then none else some (emaRef values p k (i + m))) := by
  intro rest
  induction rest with
  | nil => intro i _ _; simp [emaGoNone]
  | cons x xs ih =>
    intro i hdrop hi
    have hxs : xs = values.drop (i + 1) := by
      have : (values.drop i).tail = values.drop (i + 1) := by rw [List.tail_drop]
      rw [← hdrop] at this
      simpa using this
    simp only [List.length_cons, List.range_succ_eq_map, List.map_cons, List.map_map,
      Nat.add_zero]
    by_cases hcase : p - 1 ≤ i
    · simp only [emaGoNone, if_pos hcase]
      have hseed : ((values.drop (i + 1 - p)).take p).sum / (p : ℚ) = emaRef values p k i := by
        rw [emaRef, if_pos (by omega)]
        have h0 : i + 1 - p = 0 := by omega
        rw [h0, List.drop_zero]
      rw [hseed, emaGoSome_eq_map k values p hp xs i _ hxs hcase rfl]
      rw [if_neg (by omega : ¬ i < p - 1)]
      congr 1
      apply List.map_congr_left
      intro m _
      simp only [Function.comp_apply, Nat.succ_eq_add_one]
      rw [if_neg (by omega : ¬ i + (m + 1) < p - 1)]
      have hm : i + 1 + m = i + (m + 1) := by omega
      rw [hm]
    · simp only [emaGoNone, if_neg hcase]
      rw [if_pos (by omega : i < p - 1)]
      congr 1
      rw [ih (i + 1) hxs (by omega)]
      apply List.map_congr_left
      intro m _
      simp only [Function.comp_apply, Nat.succ_eq_add_one]
      have hm : i + 1 + m = i + (m + 1) := by omega
      rw [hm]

/-- Characterization of `ema`: `none` strictly before index `period - 1`, the
closed form `emaRef` from there on. -/
lemma ema_eq_map (values : List ℚ) (p : ℕ) (hp : 1 ≤ p) :
    ema values p =
      (List.range values.length).map
        (fun j => if j < p - 1 then none else some (emaRef values p (2 / ((p : ℚ) + 1)) j)) := by
  unfold ema
  rw [if_neg (by omega)]
  have := emaGoNone_eq_map (2 / ((p : ℚ) + 1)) values p hp values 0 (by simp) (by omega)
  simpa using this

/-- Walking the first `period - 1` inputs, the rolling sum of `sma` is the
prefix sum, so the first defined value is the mean of the first `period`
inputs. -/
lemma smaGo_seed (values : List ℚ) (p : ℕ) (hp : 1 ≤ p) (hlen : p ≤ values.length) :
    ∀ (rest : List ℚ) (i : ℕ) (sum : ℚ), rest = values.drop i → i ≤ p - 1 →
      sum = (values.take i).sum →
      (smaGo p values i sum rest).get? (p - 1 - i) =
        some (some ((values.take p).sum / p)) := by
  intro rest
  induction rest with
  | nil =>
    intro i sum hdrop hi _
    exfalso
    have hle : values.length ≤ i := List.drop_eq_nil_iff.mp hdrop.symm
    omega
  | cons x xs ih =>
    intro i sum hdrop hi hsum
    have hget : values[i]? = some x := by
      have h0 := List.getElem?_drop values i 0
      rw [← hdrop] at h0
      simpa using h0.symm
    have hxs : xs = values.drop (i + 1) := by
      have : (values.drop i).tail = values.drop (i + 1) := by rw [List.tail_drop]
      rw [← hdrop] at this
      simpa using this
    have hsum1 : sum + x = (values.take (i + 1)).sum := by
      rw [hsum, List.take_succ, List.sum_append, hget]
      simp
    by_cases hcase : i = p - 1
    · subst hcase
      simp only [smaGo]
      rw [if_neg (by omega : ¬ p ≤ p - 1), if_pos (le_refl (p - 1))]
      simp only [Nat.sub_self, List.get?_cons_zero, Option.some.injEq]
      rw [hsum1]
      have hpp : p - 1 + 1 = p := by omega
      rw [hpp]
    · have hlt : i < p - 1 := by omega
      simp only [smaGo]
      rw [if_neg (by omega : ¬ p ≤ i), if_neg (by omega : ¬ p - 1 ≤ i)]
      have hsub : p - 1 - i = (p - 1 - (i + 1)) + 1 := by omega
      rw [hsub, List.get?_cons_succ]
      exact ih (i + 1) (sum + x) hxs (by omega) hsum1

/-- **C6.** For every price sequence of length `≥ p` and period `p ≥ 1`, the
exponential average is undefined before index `p - 1`; its first defined
value, at index `p - 1`, is the mean of the first `p` prices and coincides
with the simple average at that index; and every later value satisfies
`ema[i] = price[i]·k + ema[i-1]·(1-k)` with `k = 2/(p+1)`. -/
theorem ema_seed_and_recurrence (values : List ℚ) (p : ℕ) (hp : 1 ≤ p)
    (hlen : p ≤ values.length) :
    (∀ j, j < p - 1 → (ema values p).get? j = some none) ∧
    (ema values p).get? (p - 1) = some (some ((values.take p).sum / p)) ∧
    (ema values p).get? (p - 1) = (sma values p).get? (p - 1) ∧
    ∀ i, p ≤ i → i < values.length →
      ∃ a b, (ema values p).get? (i - 1) = some (some a) ∧
        (ema values p).get? i = some (some b) ∧
        b = values.getD i 0 * (2 / ((p : ℚ) + 1)) + a * (1 - 2 / ((p : ℚ) + 1)) := by
  have hmap : ∀ j, j < values.length →
      (ema values p).get? j =
        some (if j < p - 1 then none
          else some (emaRef values p (2 / ((p : ℚ) + 1)) j)) := by
    intro j hj
    rw [ema_eq_map values p hp, List.get?_map, List.get?_range hj]
    rfl
  have hseed : (ema values p).get? (p - 1) =
      some (some ((values.take p).sum / p)) := by
    rw [hmap (p - 1) (by omega), if_neg (by omega : ¬ p - 1 < p - 1)]
    rw [emaRef, if_pos (le_refl (p - 1))]
  refine ⟨?_, hseed, ?_, ?_⟩
  · intro j hj
    rw [hmap j (by omega), if_pos hj]
  · rw [hseed]
    unfold sma
    rw [if_neg (by omega : ¬ p = 0)]
    have := smaGo_seed values p hp hlen values 0 0 (by simp) (by omega) (by simp)
    rw [Nat.sub_zero] at this
    rw [this]
  · intro i hpi hilen
    refine ⟨emaRef values p (2 / ((p : ℚ) + 1)) (i - 1),
      emaRef values p (2 / ((p : ℚ) + 1)) i, ?_, ?_, ?_⟩
    · rw [hmap (i - 1) (by omega), if_neg (by omega : ¬ i - 1 < p - 1)]
    · rw [hmap i hilen, if_neg (by omega : ¬ i < p - 1)]
    · conv_lhs => rw [emaRef]
      rw [if_neg (by omega : ¬ i ≤ p - 1)]

/-- Witness for `ema_seed_and_recurrence` at prices `[1, 2, 3]`, period `2`:
the seed at index `1` is `3/2` and `ema[2] = 3·(2/3) + (3/2)·(1/3) = 5/2`. -/
theorem ema_seed_and_recurrence_witness :
    (ema [1, 2, 3] 2).get? 1 = some (some (3 / 2)) ∧
      (ema [1, 2, 3] 2).get? 1 = (sma [1, 2, 3] 2).get? 1 := by
  have h := ema_seed_and_recurrence [1, 2, 3] 2 (by norm_num) (by norm_num)
  refine ⟨?_, h.2.2.1⟩
  have h2 := h.2.1
  norm_num at h2 ⊢
  exact h2

/-! ### Lemmas about `macd` -/

lemma jsGet_range_map (f : ℕ → Option ℚ) (n i : ℕ) :
    jsGet ((List.range n).map f) i = if i < n then f i else none := by
  unfold jsGet
  by_cases h : i < n
  · rw [List.get?_map, List.get?_range h, if_pos h]
    rfl
  · rw [if_neg h, List.get?_eq_none.mpr (by simpa using (by omega : n ≤ i))]
    rfl

/-- **C5.** The trend/signal/histogram triple: `hist = macd - signal` at every
position where both are defined; all three are undefined wherever the fast or
the slow exponential average is undefined; and the signal line is exactly the
exponential average of the zero-filled trend line re-masked to `none` wherever
the trend is undefined. -/
theorem macd_trend_signal_hist (values : List ℚ) (fast slow signalPeriod : ℕ) :
    (∀ i a b, jsGet (macd values fast slow signalPeriod).macd i = some a →
      jsGet (macd values fast slow signalPeriod).signal i = some b →
      jsGet (macd values fast slow signalPeriod).hist i = some (a - b)) ∧
    (∀ i, (jsGet (ema values fast) i = none ∨ jsGet (ema values slow) i = none) →
      jsGet (macd values fast slow signalPeriod).macd i = none ∧
      jsGet (macd values fast slow signalPeriod).signal i = none ∧
      jsGet (macd values fast slow signalPeriod).hist i = none) ∧
    (macd values fast slow signalPeriod).signal =
      (List.range values.length).map (fun i =>
        match jsGet (macd values fast slow signalPeriod).macd i with
        | none => none
        | some _ =>
          jsGet (ema ((macd values fast slow signalPeriod).macd.map
            fun v => v.getD 0) signalPeriod) i) := by
  refine ⟨?_, ?_, rfl⟩
  · intro i a b ha hb
    simp only [macd] at ha hb ⊢
    by_cases h : i < values.length
    · simp only [jsGet_range_map, if_pos h] at ha hb ⊢
      rw [hb, ha]
    · simp only [jsGet_range_map, if_neg h] at ha
      exact absurd ha (by simp)
  · intro i hor
    have hval : (match jsGet (ema values fast) i, jsGet (ema values slow) i with
        | some a, some b => some (a - b)
        | _, _ => (none : Option ℚ)) = none := by
      rcases hor with h1 | h1
      · rw [h1]
      · rw [h1]
        cases jsGet (ema values fast) i <;> rfl
    have hm : jsGet (macd values fast slow signalPeriod).macd i = none := by
      simp only [macd]
      by_cases h : i < values.length
      · simp only [jsGet_range_map, if_pos h]
        exact hval
      · simp only [jsGet_range_map, if_neg h]
    refine ⟨hm, ?_, ?_⟩
    · simp only [macd] at hm ⊢
      by_cases h : i < values.length
      · simp only [jsGet_range_map, if_pos h]
        rw [hval]
      · simp only [jsGet_range_map, if_neg h]
    · simp only [macd] at hm ⊢
      by_cases h : i < values.length
      · simp only [jsGet_range_map, if_pos h]
        rw [hval]
      · simp only [jsGet_range_map, if_neg h]

set_option maxHeartbeats 1000000 in
/-- Witness for `macd_trend_signal_hist` on `[1, 2, 3, 4]` with periods
`(1, 2, 1)`: at index `1` both trend and signal are `1/2`, so the histogram is
`0`; at index `0` the slow average is undefined and all three outputs are
`none`. -/
theorem macd_trend_signal_hist_witness :
    jsGet (macd [1, 2, 3, 4] 1 2 1).hist 1 = some ((1 : ℚ) / 2 - 1 / 2) ∧
      jsGet (macd [1, 2, 3, 4] 1 2 1).macd 0 = none := by
  have hmac : (macd [1, 2, 3, 4] 1 2 1).macd =
      [none, some (1 / 2), some (1 / 2), some (1 / 2)] := by
    norm_num [macd, jsGet, ema, emaGoNone, emaGoSome, List.range_succ]
  have hsig : (macd [1, 2, 3, 4] 1 2 1).signal =
      [none, some (1 / 2), some (1 / 2), some (1 / 2)] := by
    norm_num [macd, jsGet, ema, emaGoNone, emaGoSome, List.range_succ]
  have hslow : ema [1, 2, 3, 4] 2 = [none, some (3 / 2), some (5 / 2), some (7 / 2)] := by
    norm_num [ema, emaGoNone, emaGoSome]
  refine ⟨(macd_trend_signal_hist [1, 2, 3, 4] 1 2 1).1 1 (1 / 2) (1 / 2) ?_ ?_,
    ((macd_trend_signal_hist [1, 2, 3, 4] 1 2 1).2.1 0 (Or.inr ?_)).1⟩
  · rw [hmac]; rfl
  · rw [hsig]; rfl
  · rw [hslow]; rfl

/-! ### Data model: OHLC bars (src/lib/types.ts) -/

/-- `toFixed2` (src/unnamed/part_001): `Math.round(n * 100) / 100`;
`Math.round x = ⌊x + 1/2⌋` (half-up). -/
def toFixed2 (n : ℚ) : ℚ := (⌊n * 100 + 1 / 2⌋ : ℚ) / 100

structure Candle where
  time : ℕ
  «open» : ℚ
  high : ℚ
  low : ℚ
  close : ℚ
deriving DecidableEq

instance : Inhabited Candle := ⟨⟨0, 0, 0, 0, 0⟩⟩

/-- The per-bar ordering invariant `low ≤ min(open, close) ≤ max(open, close) ≤ high`. -/
def Candle.inv (c : Candle) : Prop :=
  c.low ≤ min c.«open» c.close ∧ max c.«open» c.close ≤ c.high

instance (c : Candle) : Decidable c.inv :=
  inferInstanceAs (Decidable (_ ∧ _))

/-! ### Generator (src/lib/gbm.ts, lines 16-54)

`genGBMBars` advances a log-price random walk in `substeps` sub-intervals per
bar; each sub-step price is `price * exp((μ - σ²/2)·dt + σ·√dt·z)` with `z` a
Box-Muller standard normal from the injected `rng`.  The transcendental
sub-step prices cannot be carried out over `ℚ`, so the embedding abstracts
each bar's sub-step price path as an arbitrary rational list (`paths`, one
inner entry per sub-step), quantifying over all of them; every concrete
invocation of the source produces some such path family.  The bar structure
around the path is translated literally: the bar opens at `last` (the previous
unrounded close), `high`/`low` are the running max/min of the path including
the open, the close is the final path value, all four stored rounded with
`toFixed2`, and `last` continues with the unrounded close. -/

def genGBMGo : ℕ → ℚ → List (List ℚ) → List Candle
  | _, _, [] => []
  | i, last, path :: rest =>
    let op := last
    let hi := path.foldl max op
    let lo := path.foldl min op
    let cl := (path.getLast?).getD op
    { time := i, «open» := toFixed2 op, high := toFixed2 hi,
      low := toFixed2 lo, close := toFixed2 cl } :: genGBMGo (i + 1) cl rest

def genGBMBars (start : ℚ) (paths : List (List ℚ)) : List Candle :=
  genGBMGo 0 start paths

/-! ### Aggregator (src/components/IndicatorPlayground.tsx, lines 141-163) -/

/-- `Math.max(...xs)` over a nonempty array (the fold of the source starts
from `-Infinity`; the `[]` case does not occur at any call site). -/
def listMax : List ℚ → ℚ
  | [] => 0
  | x :: xs => xs.foldl max x

def listMin : List ℚ → ℚ
  | [] => 0
  | x :: xs => xs.foldl min x

def aggregate (base : List Candle) (g : ℕ) : List Candle :=
  if g ≤ 1 then base
  else
    let n := base.length
    (List.range (n / g)).map fun gi =>
      let start := gi * g
      let e := min (n - 1) (start + g - 1)
      let group := (base.drop start).take (e + 1 - start)
      { time := gi
        «open» := (base.getD start default).«open»
        high := listMax (group.map Candle.high)
        low := listMin (group.map Candle.low)
        close := (base.getD e default).close }

/-! ### Edit-propagation engine
(src/components/IndicatorPlayground.tsx, lines 281-422) -/

inductive DragField
  | «open» | high | low | close
deriving DecidableEq

/-- `randIndex(lo, hi) = lo + Math.floor(Math.random() * (hi - lo + 1))`, the
uniform draw abstracted as the parameter `r` (in `[0, 1)` for a genuine
tie-break). -/
def randIndex (r : ℚ) (lo hi : ℕ) : ℕ :=
  lo + (⌊r * ((hi : ℚ) - (lo : ℚ) + 1)⌋).toNat

/-- The lowering loop of the `high` edit: clamp each listed candle's high down
to the target, never below its own body max. -/
def clampHighs (target : ℚ) : List ℕ → List Candle → List Candle
  | [], l => l
  | i :: rest, l =>
    let c := l.getD i default
    clampHighs target rest
      (l.set i { c with high := max (max c.«open» c.close) (min c.high target) })

/-- The raising loop of the `low` edit: clamp each listed candle's low up to
the target, never above its own body min. -/
def raiseLows (target : ℚ) : List ℕ → List Candle → List Candle
  | [], l => l
  | i :: rest, l =>
    let c := l.getD i default
    raiseLows target rest
      (l.set i { c with low := min (min c.«open» c.close) (max c.low target) })

def applyEditToGroup (g : ℕ) (r : ℚ) (prev : List Candle) (tfIndex : ℕ)
    (field : DragField) (newVal : ℚ) : List Candle :=
  if g ≤ 1 then prev
  else
    let n := prev.length
    let start := tfIndex * g
    let e := min (n - 1) (start + g - 1)
    if n ≤ start then prev
    else
      let aggOpen := (prev.getD start default).«open»
      let aggClose := (prev.getD e default).close
      let group := (prev.drop start).take (e + 1 - start)
      let aggHigh := listMax (group.map Candle.high)
      let aggLow := listMin (group.map Candle.low)
      let idxs := List.range' start (e + 1 - start)
      match field with
      | .«open» =>
        let delta := newVal - aggOpen
        let c0 := prev.getD start default
        let c1 := { c0 with «open» := c0.«open» + delta }
        let c2 := { c1 with high := max c1.high (max c1.«open» c1.close) }
        let c3 := { c2 with low := min c2.low (min c2.«open» c2.close) }
        let out1 := prev.set start c3
        if 1 ≤ start then
          let p0 := out1.getD (start - 1) default
          let p1 := { p0 with close := c3.«open» }
          let p2 := { p1 with high := max p1.high (max p1.«open» p1.close) }
          let p3 := { p2 with low := min p2.low (min p2.«open» p2.close) }
          out1.set (start - 1) p3
        else out1
      | .close =>
        let delta := newVal - aggClose
        let c0 := prev.getD e default
        let c1 := { c0 with close := c0.close + delta }
        let c2 := { c1 with high := max c1.high (max c1.«open» c1.close) }
        let c3 := { c2 with low := min c2.low (min c2.«open» c2.close) }
        let out1 := prev.set e c3
        if e + 1 < out1.length then
          let p0 := out1.getD (e + 1) default
          let p1 := { p0 with «open» := c3.close }
          let p2 := { p1 with high := max p1.high (max p1.«open» p1.close) }
          let p3 := { p2 with low := min p2.low (min p2.«open» p2.close) }
          out1.set (e + 1) p3
        else out1
      | .high =>
        let floorHigh := listMax (group.map (fun c => max c.«open» c.close))
        let target := if newVal < floorHigh then floorHigh else newVal
        if aggHigh ≤ target then
          let maxIdxs := idxs.filter (fun i => (prev.getD i default).high = aggHigh)
          let k := if maxIdxs.length ≠ 0
            then maxIdxs.getD (randIndex r 0 (maxIdxs.length - 1)) 0
            else randIndex r start e
          let c0 := prev.getD k default
          let c1 := { c0 with high := max target (max c0.«open» c0.close) }
          prev.set k c1
        else
          let out1 := clampHighs target idxs prev
          let candidates := idxs.filter
            (fun i => max (out1.getD i default).«open» (out1.getD i default).close ≤ target)
          if candidates.length ≠ 0 then
            let k := candidates.getD (randIndex r 0 (candidates.length - 1)) 0
            let c0 := out1.getD k default
            let c1 := { c0 with high := max (max c0.«open» c0.close) target }
            out1.set k c1
          else out1
      | .low =>
        let ceilLow := listMin (group.map (fun c => min c.«open» c.close))
        let target := if ceilLow < newVal then ceilLow else newVal
        if target ≤ aggLow then
          let minIdxs := idxs.filter (fun i => (prev.getD i default).low = aggLow)
          let k := if minIdxs.length ≠ 0
            then minIdxs.getD (randIndex r 0 (minIdxs.length - 1)) 0
            else randIndex r start e
          let c0 := prev.getD k default
          let c1 := { c0 with low := min target (min c0.«open» c0.close) }
          prev.set k c1
        else
          let out1 := raiseLows target idxs prev
          let candidates := idxs.filter
            (fun i => target ≤ min (out1.getD i default).«open» (out1.getD i default).close)
          if candidates.length ≠ 0 then
            let k := candidates.getD (randIndex r 0 (candidates.length - 1)) 0
            let c0 := out1.getD k default
            let c1 := { c0 with low := min (min c0.«open» c0.close) target }
            out1.set k c1
          else out1

/-- The exponential-average point-drag edit (src/components/
IndicatorPlayground.tsx, lines 540-575 inside the moving-average `onMove`
handler): solve `T = newClose·k + prevEma·(1-k)` for the new close of the
last base bar of the display group, apply the difference as a delta, widen
high/low and repair the next bar's open; a no-op when the previous EMA value
`emaVals[index - 1]` is `null` (including `index = 0`, where the access is
out of range). -/
def emaDragEdit (g : ℕ) (period : ℕ) (index : ℕ) (target : ℚ)
    (base : List Candle) : List Candle :=
  let nBase := base.length
  let baseEnd := min (nBase - 1) (index * g + (g - 1))
  if nBase ≤ baseEnd then base
  else
    let closeValues := (aggregate base g).map Candle.close
    let k : ℚ := 2 / ((period : ℚ) + 1)
    let emaVals := ema closeValues period
    let prevE : Option ℚ := if index = 0 then none else jsGet emaVals (index - 1)
    match prevE with
    | none => base
    | some pe =>
      let newClose := (target - (1 - k) * pe) / k
      let delta := match closeValues.get? index with
        | some c => newClose - c
        | none => 0
      let c0 := base.getD baseEnd default
      let c1 := { c0 with close := c0.close + delta }
      let c2 := { c1 with high := max c1.high (max c1.«open» c1.close) }
      let c3 := { c2 with low := min c2.low (min c2.«open» c2.close) }
      let out1 := base.set baseEnd c3
      if baseEnd + 1 < out1.length then
        let p0 := out1.getD (baseEnd + 1) default
        let p1 := { p0 with «open» := c3.close }
        let p2 := { p1 with high := max p1.high (max p1.«open» p1.close) }
        let p3 := { p2 with low := min p2.low (min p2.«open» p2.close) }
        out1.set (baseEnd + 1) p3
      else out1

/-! ### Order lemmas for list folds -/

lemma le_foldl_max (l : List ℚ) : ∀ a : ℚ, a ≤ l.foldl max a := by
  induction l with
  | nil => intro a; simp
  | cons x xs ih => intro a; exact le_trans (le_max_left a x) (ih (max a x))

lemma mem_le_foldl_max (l : List ℚ) : ∀ (a x : ℚ), x ∈ l → x ≤ l.foldl max a := by
  induction l with
  | nil => intro a x hx; simp at hx
  | cons y ys ih =>
    intro a x hx
    rcases List.mem_cons.mp hx with h | h
    · subst h
      exact le_trans (le_max_right a x) (le_foldl_max ys (max a x))
    · exact ih (max a y) x h

lemma foldl_max_le (l : List ℚ) : ∀ (a b : ℚ), a ≤ b → (∀ x ∈ l, x ≤ b) →
    l.foldl max a ≤ b := by
  induction l with
  | nil => intro a b hab _; simpa using hab
  | cons y ys ih =>
    intro a b hab hall
    exact ih (max a y) b (max_le hab (hall y (List.mem_cons_self _ _)))
      fun x hx => hall x (List.mem_cons_of_mem y hx)

lemma foldl_max_cases (l : List ℚ) : ∀ a : ℚ, l.foldl max a = a ∨ l.foldl max a ∈ l := by
  induction l with
  | nil => intro a; left; rfl
  | cons y ys ih =>
    intro a
    rcases ih (max a y) with h | h
    · rcases max_choice a y with h1 | h1
      · left; rw [List.foldl_cons, h, h1]
      · right; rw [List.foldl_cons, h, h1]; exact List.mem_cons_self _ _
    · right; exact List.mem_cons_of_mem y h

lemma foldl_min_le (l : List ℚ) : ∀ a : ℚ, l.foldl min a ≤ a := by
  induction l with
  | nil => intro a; simp
  | cons x xs ih => intro a; exact le_trans (ih (min a x)) (min_le_left a x)

lemma foldl_min_le_mem (l : List ℚ) : ∀ (a x : ℚ), x ∈ l → l.foldl min a ≤ x := by
  induction l with
  | nil => intro a x hx; simp at hx
  | cons y ys ih =>
    intro a x hx
    rcases List.mem_cons.mp hx with h | h
    · subst h
      exact le_trans (foldl_min_le ys (min a x)) (min_le_right a x)
    · exact ih (min a y) x h

lemma le_foldl_min (l : List ℚ) : ∀ (a b : ℚ), b ≤ a → (∀ x ∈ l, b ≤ x) →
    b ≤ l.foldl min a := by
  induction l with
  | nil => intro a b hab _; simpa using hab
  | cons y ys ih =>
    intro a b hab hall
    exact ih (min a y) b (le_min hab (hall y (List.mem_cons_self _ _)))
      fun x hx => hall x (List.mem_cons_of_mem y hx)

lemma foldl_min_cases (l : List ℚ) : ∀ a : ℚ, l.foldl min a = a ∨ l.foldl min a ∈ l := by
  induction l with
  | nil => intro a; left; rfl
  | cons y ys ih =>
    intro a
    rcases ih (min a y) with h | h
    · rcases min_choice a y with h1 | h1
      · left; rw [List.foldl_cons, h, h1]
      · right; rw [List.foldl_cons, h, h1]; exact List.mem_cons_self _ _
    · right; exact List.mem_cons_of_mem y h

lemma le_listMax (l : List ℚ) (x : ℚ) (hx : x ∈ l) : x ≤ listMax l := by
  cases l with
  | nil => simp at hx
  | cons y ys =>
    rcases List.mem_cons.mp hx with h | h
    · subst h; exact le_foldl_max ys x
    · exact mem_le_foldl_max ys y x h

lemma listMax_le (l : List ℚ) (b : ℚ) (hne : l ≠ []) (hall : ∀ x ∈ l, x ≤ b) :
    listMax l ≤ b := by
  cases l with
  | nil => exact absurd rfl hne
  | cons y ys =>
    exact foldl_max_le ys y b (hall y (List.mem_cons_self _ _))
      fun x hx => hall x (List.mem_cons_of_mem y hx)

lemma listMax_mem (l : List ℚ) (hne : l ≠ []) : listMax l ∈ l := by
  cases l with
  | nil => exact absurd rfl hne
  | cons y ys =>
    rcases foldl_max_cases ys y with h | h
    · rw [listMax, h]; exact List.mem_cons_self _ _
    · exact List.mem_cons_of_mem y h

lemma listMin_le (l : List ℚ) (x : ℚ) (hx : x ∈ l) : listMin l ≤ x := by
  cases l with
  | nil => simp at hx
  | cons y ys =>
    rcases List.mem_cons.mp hx with h | h
    · subst h; exact foldl_min_le ys x
    · exact foldl_min_le_mem ys y x h

lemma le_listMin (l : List ℚ) (b : ℚ) (hne : l ≠ []) (hall : ∀ x ∈ l, b ≤ x) :
    b ≤ listMin l := by
  cases l with
  | nil => exact absurd rfl hne
  | cons y ys =>
    exact le_foldl_min ys y b (hall y (List.mem_cons_self _ _))
      fun x hx => hall x (List.mem_cons_of_mem y hx)

lemma listMin_mem (l : List ℚ) (hne : l ≠ []) : listMin l ∈ l := by
  cases l with
  | nil => exact absurd rfl hne
  | cons y ys =>
    rcases foldl_min_cases ys y with h | h
    · rw [listMin, h]; exact List.mem_cons_self _ _
    · exact List.mem_cons_of_mem y h

/-- `toFixed2` is monotone (rounding half-up then dividing by `100`). -/
lemma toFixed2_mono {a b : ℚ} (h : a ≤ b) : toFixed2 a ≤ toFixed2 b := by
  unfold toFixed2
  have : (⌊a * 100 + 1 / 2⌋ : ℤ) ≤ ⌊b * 100 + 1 / 2⌋ := by
    apply Int.floor_le_floor
    nlinarith
  have hc : ((⌊a * 100 + 1 / 2⌋ : ℤ) : ℚ) ≤ ((⌊b * 100 + 1 / 2⌋ : ℤ) : ℚ) := by
    exact_mod_cast this
  linarith

/-! ### Generator lemmas -/

/-- Every generated bar satisfies the OHLC ordering invariant: the running
min/max of the sub-step path (open included) bracket both the open and the
close, and `toFixed2` is monotone. -/
lemma genGBMGo_inv : ∀ (paths : List (List ℚ)) (i : ℕ) (last : ℚ) (c : Candle),
    c ∈ genGBMGo i last paths → c.inv := by
  intro paths
  induction paths with
  | nil => intro i last c hc; simp [genGBMGo] at hc
  | cons path rest ih =>
    intro i last c hc
    simp only [genGBMGo] at hc
    rcases List.mem_cons.mp hc with h | h
    · subst h
      have hcl : path.foldl min last ≤ (path.getLast?).getD last ∧
          (path.getLast?).getD last ≤ path.foldl max last := by
        cases hpath : path.getLast? with
        | none => simp [foldl_min_le, le_foldl_max]
        | some z =>
          have hz : z ∈ path := List.mem_of_getLast?_eq_some hpath
          simp only [Option.getD_some]
          exact ⟨foldl_min_le_mem path last z hz, mem_le_foldl_max path last z hz⟩
      constructor
      · exact le_min (toFixed2_mono (foldl_min_le path last))
          (toFixed2_mono hcl.1)
      · exact max_le (toFixed2_mono (le_foldl_max path last))
          (toFixed2_mono hcl.2)
    · exact ih (i + 1) _ c h

lemma genGBMGo_continuity : ∀ (paths : List (List ℚ)) (i0 : ℕ) (last : ℚ)
    (j : ℕ) (a b : Candle),
    (genGBMGo i0 last paths).get? j = some a →
    (genGBMGo i0 last paths).get? (j + 1) = some b →
    b.«open» = a.close := by
  intro paths
  induction paths with
  | nil => intro i0 last j a b ha _; simp [genGBMGo] at ha
  | cons path rest ih =>
    intro i0 last j a b ha hb
    cases j with
    | zero =>
      simp only [genGBMGo, List.get?_cons_zero, Option.some.injEq] at ha
      simp only [genGBMGo, List.get?_cons_succ] at hb
      cases rest with
      | nil => simp [genGBMGo] at hb
      | cons path2 rest2 =>
        simp only [genGBMGo, List.get?_cons_zero, Option.some.injEq] at hb
        rw [← ha, ← hb]
    | succ j =>
      simp only [genGBMGo, List.get?_cons_succ] at ha hb
      exact ih (i0 + 1) _ j a b ha hb

/-- **C8.** For every generator invocation (abstracting the transcendental
sub-step price paths, which covers every bar count, start price, drift,
volatility, random source and sub-step count) and every pair of consecutive
output bars, the stored (2-decimal-rounded) open of bar `i+1` equals the
stored close of bar `i` exactly: both are `toFixed2` of the same unrounded
close. -/
theorem genGBMBars_continuity (start : ℚ) (paths : List (List ℚ)) :
    ∀ i a b, (genGBMBars start paths).get? i = some a →
      (genGBMBars start paths).get? (i + 1) = some b →
      b.«open» = a.close := by
  intro i a b ha hb
  exact genGBMGo_continuity paths 0 start i a b ha hb

/-- Witness for `genGBMBars_continuity`: two bars with constant sub-step
paths. -/
theorem genGBMBars_continuity_witness :
    (⟨1, toFixed2 1, toFixed2 1, toFixed2 1, toFixed2 1⟩ : Candle).«open» =
      (⟨0, toFixed2 1, toFixed2 1, toFixed2 1, toFixed2 1⟩ : Candle).close :=
  genGBMBars_continuity 1 [[1], [1]] 0
    ⟨0, toFixed2 1, toFixed2 1, toFixed2 1, toFixed2 1⟩
    ⟨1, toFixed2 1, toFixed2 1, toFixed2 1, toFixed2 1⟩
    (by simp [genGBMBars, genGBMGo]) (by simp [genGBMBars, genGBMGo])

/-- **C10.** When the current granularity `g` is `≤ 1` (base timeframe), the
group-edit function returns its input base sequence unchanged for every group
index, field and target value. -/
theorem applyEditToGroup_identity_tf (g : ℕ) (r : ℚ) (prev : List Candle)
    (tfIndex : ℕ) (field : DragField) (newVal : ℚ) (hg : g ≤ 1) :
    applyEditToGroup g r prev tfIndex field newVal = prev := by
  simp only [applyEditToGroup]
  rw [if_pos hg]

/-- Witness for `applyEditToGroup_identity_tf` at `g = 1`. -/
theorem applyEditToGroup_identity_tf_witness :
    applyEditToGroup 1 0 [⟨0, 1, 2, 0, 1⟩] 0 DragField.high 5 = [⟨0, 1, 2, 0, 1⟩] :=
  applyEditToGroup_identity_tf 1 0 [⟨0, 1, 2, 0, 1⟩] 0 DragField.high 5 (by norm_num)

/-- **C7.** An aggregate edit addressing a group whose start index lies at or
beyond the end of the base sequence is a no-op, for every field and target;
and an exponential-average point edit whose previous EMA value
(`emaVals[index - 1]`) is undefined — including `index = 0` — is a no-op. -/
theorem edits_out_of_range_noop :
    (∀ (g : ℕ) (r : ℚ) (prev : List Candle) (tfIndex : ℕ) (field : DragField)
      (newVal : ℚ), prev.length ≤ tfIndex * g →
      applyEditToGroup g r prev tfIndex field newVal = prev) ∧
    (∀ (g period index : ℕ) (target : ℚ) (base : List Candle),
      (if index = 0 then (none : Option ℚ)
        else jsGet (ema ((aggregate base g).map Candle.close) period) (index - 1)) =
          none →
      emaDragEdit g period index target base = base) := by
  constructor
  · intro g r prev tfIndex field newVal h
    simp only [applyEditToGroup]
    by_cases hg : g ≤ 1
    · rw [if_pos hg]
    · rw [if_neg hg, if_pos h]
  · intro g period index target base h
    simp only [emaDragEdit]
    by_cases hend : base.length ≤ min (base.length - 1) (index * g + (g - 1))
    · rw [if_pos hend]
    · rw [if_neg hend, h]

/-- Witness for `edits_out_of_range_noop`: a group edit starting past the end
of a one-bar sequence, and an EMA point edit at display index `0`. -/
theorem edits_out_of_range_noop_witness :
    applyEditToGroup 2 0 [⟨0, 1, 2, 0, 1⟩] 3 DragField.close 7 = [⟨0, 1, 2, 0, 1⟩] ∧
      emaDragEdit 1 1 0 5 [⟨0, 1, 2, 0, 1⟩] = [⟨0, 1, 2, 0, 1⟩] :=
  ⟨edits_out_of_range_noop.1 2 0 [⟨0, 1, 2, 0, 1⟩] 3 DragField.close 7 (by norm_num),
    edits_out_of_range_noop.2 1 1 0 5 [⟨0, 1, 2, 0, 1⟩] rfl⟩

/-! ### Aggregation and edit lemmas -/

lemma length_clampHighs (target : ℚ) : ∀ (idxs : List ℕ) (l : List Candle),
    (clampHighs target idxs l).length = l.length := by
  intro idxs
  induction idxs with
  | nil => intro l; rfl
  | cons i rest ih =>
    intro l
    simp only [clampHighs]
    rw [ih, List.length_set]

lemma length_raiseLows (target : ℚ) : ∀ (idxs : List ℕ) (l : List Candle),
    (raiseLows target idxs l).length = l.length := by
  intro idxs
  induction idxs with
  | nil => intro l; rfl
  | cons i rest ih =>
    intro l
    simp only [raiseLows]
    rw [ih, List.length_set]

lemma getD_set_ne (l : List Candle) (j k : ℕ) (c d : Candle) (h : j ≠ k) :
    (l.set j c).getD k d = l.getD k d := by
  rw [List.getD_eq_getD_get?, List.getD_eq_getD_get?, List.get?_set_ne c l h]

lemma getD_set_self (l : List Candle) (j : ℕ) (c d : Candle) (h : j < l.length) :
    (l.set j c).getD j d = c := by
  rw [List.getD_eq_getD_get?, List.get?_set_eq_of_lt c h]
  rfl

lemma aggregate_get? (base : List Candle) (g gi : ℕ) (hg : 2 ≤ g)
    (hgi : gi < base.length / g) :
    (aggregate base g).get? gi = some
      { time := gi
        «open» := (base.getD (gi * g) default).«open»
        high := listMax (((base.drop (gi * g)).take
          (min (base.length - 1) (gi * g + g - 1) + 1 - gi * g)).map Candle.high)
        low := listMin (((base.drop (gi * g)).take
          (min (base.length - 1) (gi * g + g - 1) + 1 - gi * g)).map Candle.low)
        close := (base.getD (min (base.length - 1) (gi * g + g - 1)) default).close } := by
  simp only [aggregate]
  rw [if_neg (by omega : ¬ g ≤ 1), List.get?_map, List.get?_range hgi]
  rfl

lemma length_applyEditToGroup (g : ℕ) (r : ℚ) (prev : List Candle) (tfIndex : ℕ)
    (field : DragField) (newVal : ℚ) :
    (applyEditToGroup g r prev tfIndex field newVal).length = prev.length := by
  simp only [applyEditToGroup]
  repeat' split
  all_goals simp [List.length_set, length_clampHighs, length_raiseLows]

/-- **C3.** For every base sequence, granularity `g ≥ 2`, in-range complete
group index `i` and every target `T`: editing the aggregate open (resp.
close) to `T` and re-aggregating gives an aggregate bar at index `i` whose
open (resp. close) equals `T` exactly. -/
theorem aggregate_open_close_round_trip (prev : List Candle) (g i : ℕ) (T r : ℚ)
    (hg : 2 ≤ g) (hi : i < prev.length / g) :
    ((aggregate (applyEditToGroup g r prev i DragField.«open» T) g).getD i
      default).«open» = T ∧
    ((aggregate (applyEditToGroup g r prev i DragField.close T) g).getD i
      default).close = T := by
  have hg0 : 0 < g := by omega
  have hmul : (i + 1) * g ≤ prev.length := (Nat.le_div_iff_mul_le hg0).mp (by omega)
  have hmul' : i * g + g ≤ prev.length := by
    calc i * g + g = (i + 1) * g := by ring
    _ ≤ prev.length := hmul
  have hstart : i * g < prev.length := by omega
  constructor
  · simp only [applyEditToGroup]
    rw [if_neg (by omega : ¬ g ≤ 1), if_neg (by omega : ¬ prev.length ≤ i * g)]
    by_cases hst : 1 ≤ i * g
    · rw [if_pos hst]
      rw [List.getD_eq_getD_get?,
        aggregate_get? _ g i hg (by simpa [List.length_set] using hi)]
      simp only [Option.getD_some]
      rw [getD_set_ne _ _ _ _ _ (by omega : i * g - 1 ≠ i * g),
        getD_set_self _ _ _ _ (by simpa [List.length_set] using hstart)]
      change (prev.getD (i * g) default).«open» +
        (T - (prev.getD (i * g) default).«open») = T
      ring
    · rw [if_neg hst]
      rw [List.getD_eq_getD_get?,
        aggregate_get? _ g i hg (by simpa [List.length_set] using hi)]
      simp only [Option.getD_some]
      rw [getD_set_self _ _ _ _ hstart]
      change (prev.getD (i * g) default).«open» +
        (T - (prev.getD (i * g) default).«open») = T
      ring
  · simp only [applyEditToGroup]
    rw [if_neg (by omega : ¬ g ≤ 1), if_neg (by omega : ¬ prev.length ≤ i * g)]
    have he : min (prev.length - 1) (i * g + g - 1) = i * g + g - 1 := by omega
    rw [he]
    simp only [List.length_set]
    have hee : i * g + g - 1 < prev.length := by omega
    by_cases hnb : i * g + g - 1 + 1 < prev.length
    · rw [if_pos hnb]
      rw [List.getD_eq_getD_get?,
        aggregate_get? _ g i hg (by simpa [List.length_set] using hi)]
      simp only [Option.getD_some, List.length_set, he]
      rw [getD_set_ne _ _ _ _ _ (by omega : i * g + g - 1 + 1 ≠ i * g + g - 1),
        getD_set_self _ _ _ _ hee]
      change (prev.getD (i * g + g - 1) default).close +
        (T - (prev.getD (i * g + g - 1) default).close) = T
      ring
    · rw [if_neg hnb]
      rw [List.getD_eq_getD_get?,
        aggregate_get? _ g i hg (by simpa [List.length_set] using hi)]
      simp only [Option.getD_some, List.length_set, he]
      rw [getD_set_self _ _ _ _ hee]
      change (prev.getD (i * g + g - 1) default).close +
        (T - (prev.getD (i * g + g - 1) default).close) = T
      ring

/-- Witness for `aggregate_open_close_round_trip`: two base bars, `g = 2`,
group `0`, target `7`. -/
theorem aggregate_open_close_round_trip_witness :
    ((aggregate (applyEditToGroup 2 0 [⟨0, 1, 2, 0, 1⟩, ⟨1, 1, 2, 0, 1⟩] 0
      DragField.«open» 7) 2).getD 0 default).«open» = 7 ∧
    ((aggregate (applyEditToGroup 2 0 [⟨0, 1, 2, 0, 1⟩, ⟨1, 1, 2, 0, 1⟩] 0
      DragField.close 7) 2).getD 0 default).close = 7 :=
  aggregate_open_close_round_trip [⟨0, 1, 2, 0, 1⟩, ⟨1, 1, 2, 0, 1⟩] 2 0 7 0
    (by norm_num) (by norm_num)

/-! ### Invariant lemmas -/

/-- The sequential widening `high := max(high, open, close)`;
`low := min(low, open, close)` of the source always restores the per-bar
invariant, whatever the starting fields. -/
lemma widen_inv (t : ℕ) (o h l c : ℚ) :
    Candle.inv ⟨t, o, max h (max o c), min l (min o c), c⟩ :=
  ⟨min_le_right _ _, le_max_right _ _⟩

lemma high_ge_body_inv (c0 : Candle) (h : c0.inv) (nh : ℚ)
    (hnh : max c0.«open» c0.close ≤ nh) : Candle.inv { c0 with high := nh } :=
  ⟨h.1, hnh⟩

lemma low_le_body_inv (c0 : Candle) (h : c0.inv) (nl : ℚ)
    (hnl : nl ≤ min c0.«open» c0.close) : Candle.inv { c0 with low := nl } :=
  ⟨hnl, h.2⟩

lemma default_inv : (default : Candle).inv :=
  ⟨by simp [default], by simp [default]⟩

lemma inv_getD (l : List Candle) (hl : ∀ d ∈ l, d.inv) (i : ℕ) :
    (l.getD i default).inv := by
  rw [List.getD_eq_getD_get?]
  cases h : l.get? i with
  | none => exact default_inv
  | some x =>
    simp only [Option.getD_some]
    exact hl x (List.get?_mem h)

lemma forall_mem_set {P : Candle → Prop} (l : List Candle) (j : ℕ) (c : Candle)
    (hl : ∀ d ∈ l, P d) (hc : P c) : ∀ d ∈ l.set j c, P d := by
  intro d hd
  rcases List.mem_or_eq_of_mem_set hd with h | h
  · exact hl d h
  · exact h ▸ hc

lemma forall_mem_clampHighs (target : ℚ) : ∀ (idxs : List ℕ) (l : List Candle),
    (∀ d ∈ l, d.inv) → ∀ d ∈ clampHighs target idxs l, d.inv := by
  intro idxs
  induction idxs with
  | nil => intro l hl; exact hl
  | cons i rest ih =>
    intro l hl
    simp only [clampHighs]
    apply ih
    apply forall_mem_set l i _ hl
    exact high_ge_body_inv _ (inv_getD l hl i) _ (le_max_left _ _)

lemma forall_mem_raiseLows (target : ℚ) : ∀ (idxs : List ℕ) (l : List Candle),
    (∀ d ∈ l, d.inv) → ∀ d ∈ raiseLows target idxs l, d.inv := by
  intro idxs
  induction idxs with
  | nil => intro l hl; exact hl
  | cons i rest ih =>
    intro l hl
    simp only [raiseLows]
    apply ih
    apply forall_mem_set l i _ hl
    exact low_le_body_inv _ (inv_getD l hl i) _ (min_le_left _ _)

/-- Every bar of the output of any aggregate-field edit satisfies the
invariant, provided every input bar does. -/
lemma applyEditToGroup_inv (g : ℕ) (r : ℚ) (prev : List Candle) (tfIndex : ℕ)
    (field : DragField) (newVal : ℚ) (hinv : ∀ c ∈ prev, c.inv) :
    ∀ c ∈ applyEditToGroup g r prev tfIndex field newVal, c.inv := by
  simp only [applyEditToGroup]
  split
  · exact hinv
  split
  · exact hinv
  cases field <;> dsimp only
  · repeat' split
    all_goals
      first
      | exact forall_mem_set _ _ _
          (forall_mem_set _ _ _ hinv (widen_inv _ _ _ _ _)) (widen_inv _ _ _ _ _)
      | exact forall_mem_set _ _ _ hinv (widen_inv _ _ _ _ _)
  · repeat' split
    all_goals
      first
      | exact forall_mem_set _ _ _ hinv
          (high_ge_body_inv _ (inv_getD prev hinv _) _ (le_max_right _ _))
      | exact forall_mem_set _ _ _
          (forall_mem_clampHighs _ _ _ hinv)
          (high_ge_body_inv _
            (inv_getD _ (forall_mem_clampHighs _ _ _ hinv) _) _ (le_max_left _ _))
      | exact forall_mem_clampHighs _ _ _ hinv
  · repeat' split
    all_goals
      first
      | exact forall_mem_set _ _ _ hinv
          (low_le_body_inv _ (inv_getD prev hinv _) _ (min_le_right _ _))
      | exact forall_mem_set _ _ _
          (forall_mem_raiseLows _ _ _ hinv)
          (low_le_body_inv _
            (inv_getD _ (forall_mem_raiseLows _ _ _ hinv) _) _ (min_le_left _ _))
      | exact forall_mem_raiseLows _ _ _ hinv
  · repeat' split
    all_goals
      first
      | exact forall_mem_set _ _ _
          (forall_mem_set _ _ _ hinv (widen_inv _ _ _ _ _)) (widen_inv _ _ _ _ _)
      | exact forall_mem_set _ _ _ hinv (widen_inv _ _ _ _ _)

/-- **C4.** Every bar produced by generation satisfies
`low ≤ min(open, close) ≤ max(open, close) ≤ high`, and every aggregate-field
edit (any field, granularity, group index, target and random tie-break)
preserves the invariant for all bars. -/
theorem ohlc_invariant_generation_and_edits :
    (∀ (start : ℚ) (paths : List (List ℚ)) (c : Candle),
      c ∈ genGBMBars start paths → c.inv) ∧
    (∀ (g : ℕ) (r : ℚ) (prev : List Candle) (tfIndex : ℕ) (field : DragField)
      (newVal : ℚ), (∀ c ∈ prev, c.inv) →
      ∀ c ∈ applyEditToGroup g r prev tfIndex field newVal, c.inv) :=
  ⟨fun _ paths c hc => genGBMGo_inv paths 0 _ c hc,
    fun g r prev tfIndex field newVal hinv =>
      applyEditToGroup_inv g r prev tfIndex field newVal hinv⟩

/-- Witness for `ohlc_invariant_generation_and_edits`: a generated bar and a
high edit at `g = 2`. -/
theorem ohlc_invariant_generation_and_edits_witness :
    (⟨0, toFixed2 1, toFixed2 1, toFixed2 1, toFixed2 1⟩ : Candle).inv ∧
      ∀ c ∈ applyEditToGroup 2 0 [⟨0, 1, 2, 0, 1⟩, ⟨1, 1, 2, 0, 1⟩] 0
        DragField.high 5, c.inv :=
  ⟨ohlc_invariant_generation_and_edits.1 1 [[1]]
      ⟨0, toFixed2 1, toFixed2 1, toFixed2 1, toFixed2 1⟩
      (by simp [genGBMBars, genGBMGo]),
    ohlc_invariant_generation_and_edits.2 2 0 _ 0 DragField.high 5
      (by intro c hc
          rcases List.mem_cons.mp hc with h | h
          · subst h; constructor <;> norm_num [Candle.inv]
          · rcases List.mem_cons.mp h with h1 | h1
            · subst h1; constructor <;> norm_num [Candle.inv]
            · simp at h1)⟩

/-! ### Lemmas for the high/low edit round trip -/

lemma randIndex_le (r : ℚ) (hr0 : 0 ≤ r) (hr1 : r < 1) (lo hi : ℕ) (h : lo ≤ hi) :
    lo ≤ randIndex r lo hi ∧ randIndex r lo hi ≤ hi := by
  unfold randIndex
  have hm : ((hi : ℚ) - (lo : ℚ) + 1) = ((hi - lo + 1 : ℕ) : ℚ) := by
    push_cast [Nat.cast_sub h]
    ring
  have hmpos : (0 : ℚ) < ((hi - lo + 1 : ℕ) : ℚ) := by
    have : 1 ≤ hi - lo + 1 := by omega
    exact_mod_cast Nat.lt_of_lt_of_le Nat.zero_lt_one this
  constructor
  · omega
  · have hlt : ⌊r * ((hi : ℚ) - (lo : ℚ) + 1)⌋ < (hi - lo + 1 : ℕ) := by
      rw [hm]
      apply Int.floor_lt.mpr
      calc r * ((hi - lo + 1 : ℕ) : ℚ) < 1 * ((hi - lo + 1 : ℕ) : ℚ) := by
            apply mul_lt_mul_of_pos_right hr1 hmpos
      _ = (((hi - lo + 1 : ℕ) : ℤ) : ℚ) := by push_cast; ring
    have hnn : (0 : ℤ) ≤ ⌊r * ((hi : ℚ) - (lo : ℚ) + 1)⌋ := by
      apply Int.floor_nonneg.mpr
      rw [hm]
      positivity
    have : (⌊r * ((hi : ℚ) - (lo : ℚ) + 1)⌋).toNat < hi - lo + 1 := by omega
    omega

lemma getD_mem {α : Type} [Inhabited α] (l : List α) (j : ℕ) (d : α)
    (h : j < l.length) : l.getD j d ∈ l := by
  rw [List.getD_eq_getD_get?]
  cases h2 : l.get? j with
  | none =>
    have := List.get?_eq_none.mp h2
    omega
  | some x =>
    simp only [Option.getD_some]
    exact List.get?_mem h2

lemma getD_randIndex_mem (xs : List ℕ) (r : ℚ) (hr0 : 0 ≤ r) (hr1 : r < 1)
    (hne : xs ≠ []) : xs.getD (randIndex r 0 (xs.length - 1)) 0 ∈ xs := by
  have hlen : 1 ≤ xs.length := List.length_pos.mpr hne
  have hb := randIndex_le r hr0 hr1 0 (xs.length - 1) (by omega)
  exact getD_mem xs _ 0 (by omega)

lemma slice_set (l : List Candle) (c : Candle) (s k g : ℕ) (hks : s ≤ k) :
    ((l.set k c).drop s).take g = ((l.drop s).take g).set (k - s) c := by
  rw [List.drop_set, if_neg (by omega), List.set_take]

lemma slice_length (l : List Candle) (s g : ℕ) (hsg : s + g ≤ l.length) :
    ((l.drop s).take g).length = g := by
  simp only [List.length_take, List.length_drop]
  omega

lemma get?_slice (l : List Candle) (s g m : ℕ) (hm : m < g) :
    ((l.drop s).take g).get? m = l.get? (s + m) := by
  rw [List.get?_take hm, List.get?_drop]

lemma mem_slice_iff (l : List Candle) (s g : ℕ) (hsg : s + g ≤ l.length)
    (d : Candle) :
    d ∈ (l.drop s).take g ↔ ∃ j, s ≤ j ∧ j < s + g ∧ l.get? j = some d := by
  constructor
  · intro hd
    obtain ⟨m, hm⟩ := List.mem_iff_get?.mp hd
    have hmlt : m < g := by
      by_contra hcon
      have hlen : ((l.drop s).take g).length ≤ m := by
        rw [slice_length l s g hsg]
        omega
      rw [List.get?_eq_none.mpr hlen] at hm
      exact Option.noConfusion hm
    refine ⟨s + m, by omega, by omega, ?_⟩
    rw [← get?_slice l s g m hmlt]
    exact hm
  · rintro ⟨j, hj1, hj2, hj3⟩
    have hj : ((l.drop s).take g).get? (j - s) = some d := by
      rw [get?_slice l s g (j - s) (by omega), show s + (j - s) = j by omega]
      exact hj3
    exact List.get?_mem hj

lemma listMax_map_set_eq (slice : List Candle) (m : ℕ) (c : Candle) (t : ℚ)
    (hm : m < slice.length) (hc : c.high = t)
    (hall : ∀ d ∈ slice, d.high ≤ t) :
    listMax ((slice.set m c).map Candle.high) = t := by
  apply le_antisymm
  · apply listMax_le
    · simp only [ne_eq, List.map_eq_nil, List.set_eq_nil]
      intro hnil
      rw [hnil] at hm
      simp at hm
    · intro x hx
      obtain ⟨d, hd, rfl⟩ := List.mem_map.mp hx
      rcases List.mem_or_eq_of_mem_set hd with h | h
      · exact hall d h
      · rw [h, hc]
  · have hcm : c ∈ slice.set m c :=
      List.get?_mem (List.get?_set_eq_of_lt c (by simpa using hm))
    have : c.high ∈ (slice.set m c).map Candle.high := List.mem_map_of_mem _ hcm
    rw [← hc]
    exact le_listMax _ _ this

lemma listMin_map_set_eq (slice : List Candle) (m : ℕ) (c : Candle) (t : ℚ)
    (hm : m < slice.length) (hc : c.low = t)
    (hall : ∀ d ∈ slice, t ≤ d.low) :
    listMin ((slice.set m c).map Candle.low) = t := by
  apply le_antisymm
  · have hcm : c ∈ slice.set m c :=
      List.get?_mem (List.get?_set_eq_of_lt c (by simpa using hm))
    have : c.low ∈ (slice.set m c).map Candle.low := List.mem_map_of_mem _ hcm
    rw [← hc]
    exact listMin_le _ _ this
  · apply le_listMin
    · simp only [ne_eq, List.map_eq_nil, List.set_eq_nil]
      intro hnil
      rw [hnil] at hm
      simp at hm
    · intro x hx
      obtain ⟨d, hd, rfl⟩ := List.mem_map.mp hx
      rcases List.mem_or_eq_of_mem_set hd with h | h
      · exact hall d h
      · rw [h, hc]

lemma clampHighs_get?_not_mem (target : ℚ) : ∀ (idxs : List ℕ) (l : List Candle)
    (j : ℕ), j ∉ idxs → (clampHighs target idxs l).get? j = l.get? j := by
  intro idxs
  induction idxs with
  | nil => intro l j _; rfl
  | cons i rest ih =>
    intro l j hj
    simp only [clampHighs]
    rw [ih _ j (fun h => hj (List.mem_cons_of_mem i h))]
    exact List.get?_set_ne _ _ fun h => hj (h ▸ List.mem_cons_self i rest)

lemma clampHighs_get?_mem (target : ℚ) : ∀ (idxs : List ℕ) (l : List Candle)
    (j : ℕ), idxs.Nodup → j ∈ idxs → j < l.length →
    (clampHighs target idxs l).get? j =
      some { l.getD j default with
        high := max (max (l.getD j default).«open» (l.getD j default).close)
          (min (l.getD j default).high target) } := by
  intro idxs
  induction idxs with
  | nil => intro l j _ hj _; simp at hj
  | cons i rest ih =>
    intro l j hnd hj hlen
    have hnd' := List.nodup_cons.mp hnd
    simp only [clampHighs]
    rcases List.mem_cons.mp hj with hji | hjr
    · subst hji
      rw [clampHighs_get?_not_mem target rest _ j hnd'.1]
      rw [List.get?_set_eq_of_lt _ hlen]
    · have hji : j ≠ i := fun h => hnd'.1 (h ▸ hjr)
      rw [ih _ j hnd'.2 hjr (by simpa using hlen)]
      rw [getD_set_ne l i j _ default (fun h => hji h.symm)]

lemma raiseLows_get?_not_mem (target : ℚ) : ∀ (idxs : List ℕ) (l : List Candle)
    (j : ℕ), j ∉ idxs → (raiseLows target idxs l).get? j = l.get? j := by
  intro idxs
  induction idxs with
  | nil => intro l j _; rfl
  | cons i rest ih =>
    intro l j hj
    simp only [raiseLows]
    rw [ih _ j (fun h => hj (List.mem_cons_of_mem i h))]
    exact List.get?_set_ne _ _ fun h => hj (h ▸ List.mem_cons_self i rest)

lemma raiseLows_get?_mem (target : ℚ) : ∀ (idxs : List ℕ) (l : List Candle)
    (j : ℕ), idxs.Nodup → j ∈ idxs → j < l.length →
    (raiseLows target idxs l).get? j =
      some { l.getD j default with
        low := min (min (l.getD j default).«open» (l.getD j default).close)
          (max (l.getD j default).low target) } := by
  intro idxs
  induction idxs with
  | nil => intro l j _ hj _; simp at hj
  | cons i rest ih =>
    intro l j hnd hj hlen
    have hnd' := List.nodup_cons.mp hnd
    simp only [raiseLows]
    rcases List.mem_cons.mp hj with hji | hjr
    · subst hji
      rw [raiseLows_get?_not_mem target rest _ j hnd'.1]
      rw [List.get?_set_eq_of_lt _ hlen]
    · have hji : j ≠ i := fun h => hnd'.1 (h ▸ hjr)
      rw [ih _ j hnd'.2 hjr (by simpa using hlen)]
      rw [getD_set_ne l i j _ default (fun h => hji h.symm)]

/-- The high field of a complete aggregate group is the max of the highs over
the `g`-bar slice. -/
lemma aggregate_high_getD (R : List Candle) (g i : ℕ) (hg : 2 ≤ g)
    (hi : i < R.length / g) :
    ((aggregate R g).getD i default).high =
      listMax (((R.drop (i * g)).take g).map Candle.high) := by
  have hmul : (i + 1) * g ≤ R.length := (Nat.le_div_iff_mul_le (by omega)).mp (by omega)
  have hmul' : i * g + g ≤ R.length := by
    calc i * g + g = (i + 1) * g := by ring
    _ ≤ R.length := hmul
  rw [List.getD_eq_getD_get?, aggregate_get? R g i hg hi]
  simp only [Option.getD_some]
  have harg : min (R.length - 1) (i * g + g - 1) + 1 - i * g = g := by omega
  rw [harg]

lemma aggregate_low_getD (R : List Candle) (g i : ℕ) (hg : 2 ≤ g)
    (hi : i < R.length / g) :
    ((aggregate R g).getD i default).low =
      listMin (((R.drop (i * g)).take g).map Candle.low) := by
  have hmul : (i + 1) * g ≤ R.length := (Nat.le_div_iff_mul_le (by omega)).mp (by omega)
  have hmul' : i * g + g ≤ R.length := by
    calc i * g + g = (i + 1) * g := by ring
    _ ≤ R.length := hmul
  rw [List.getD_eq_getD_get?, aggregate_get? R g i hg hi]
  simp only [Option.getD_some]
  have harg : min (R.length - 1) (i * g + g - 1) + 1 - i * g = g := by omega
  rw [harg]

lemma get?_eq_some_getD {α : Type} [Inhabited α] (l : List α) (j : ℕ)
    (h : j < l.length) : l.get? j = some (l.getD j default) := by
  rw [List.getD_eq_getD_get?]
  cases hq : l.get? j with
  | none =>
    have := List.get?_eq_none.mp hq
    omega
  | some x => rfl

/-- The high edit makes the maximum high over the edited complete group equal
to the clamped target `max T floorHigh`. -/
lemma applyEdit_high_agg (prev : List Candle) (g i : ℕ) (T r : ℚ)
    (hinv : ∀ c ∈ prev, c.inv) (hg : 2 ≤ g) (hi : i < prev.length / g)
    (hr0 : 0 ≤ r) (hr1 : r < 1) :
    listMax ((((applyEditToGroup g r prev i DragField.high T).drop (i * g)).take
        g).map Candle.high) =
      max T (listMax (((prev.drop (i * g)).take g).map
        fun c => max c.«open» c.close)) := by
  have hg0 : 0 < g := by omega
  have hmul : (i + 1) * g ≤ prev.length := (Nat.le_div_iff_mul_le hg0).mp (by omega)
  have hmul' : i * g + g ≤ prev.length := by
    calc i * g + g = (i + 1) * g := by ring
    _ ≤ prev.length := hmul
  have hs : i * g < prev.length := by omega
  simp only [applyEditToGroup]
  rw [if_neg (by omega : ¬ g ≤ 1), if_neg (by omega : ¬ prev.length ≤ i * g)]
  rw [show min (prev.length - 1) (i * g + g - 1) = i * g + g - 1 from by omega]
  rw [show i * g + g - 1 + 1 - i * g = g from by omega]
  set floorH := listMax (((prev.drop (i * g)).take g).map
    fun c => max c.«open» c.close) with hfloor
  set tgt := if T < floorH then floorH else T with htgt
  set aggH := listMax (((prev.drop (i * g)).take g).map Candle.high) with haggH
  have htar : tgt = max T floorH := by
    rw [htgt]
    by_cases hc : T < floorH
    · rw [if_pos hc, max_eq_right hc.le]
    · rw [if_neg hc, max_eq_left (not_lt.mp hc)]
  have hfloor_le_tgt : floorH ≤ tgt := by
    rw [htar]
    exact le_max_right _ _
  have hbody : ∀ j, i * g ≤ j → j < i * g + g →
      max (prev.getD j default).«open» (prev.getD j default).close ≤ floorH := by
    intro j hj1 hj2
    apply le_listMax
    refine List.mem_map.mpr ⟨prev.getD j default, ?_, rfl⟩
    exact (mem_slice_iff prev (i * g) g hmul' _).mpr
      ⟨j, hj1, hj2, get?_eq_some_getD prev j (by omega)⟩
  have hhigh : ∀ j, i * g ≤ j → j < i * g + g →
      (prev.getD j default).high ≤ aggH := by
    intro j hj1 hj2
    apply le_listMax
    refine List.mem_map.mpr ⟨prev.getD j default, ?_, rfl⟩
    exact (mem_slice_iff prev (i * g) g hmul' _).mpr
      ⟨j, hj1, hj2, get?_eq_some_getD prev j (by omega)⟩
  by_cases hbr : aggH ≤ tgt
  · rw [if_pos hbr]
    set maxIdxs := (List.range' (i * g) g).filter
      (fun j => (prev.getD j default).high = aggH) with hmaxIdxs
    set K := if maxIdxs.length ≠ 0
      then maxIdxs.getD (randIndex r 0 (maxIdxs.length - 1)) 0
      else randIndex r (i * g) (i * g + g - 1) with hKdef
    have hKb : i * g ≤ K ∧ K < i * g + g := by
      rw [hKdef]
      by_cases hml : maxIdxs.length ≠ 0
      · rw [if_pos hml]
        have hmem := getD_randIndex_mem maxIdxs r hr0 hr1
          (fun hnil => hml (by rw [hnil]; rfl))
        have hsub : maxIdxs ⊆ List.range' (i * g) g := by
          rw [hmaxIdxs]
          exact List.filter_subset' _
        have hrange := List.mem_range'_1.mp (hsub hmem)
        omega
      · rw [if_neg hml]
        have := randIndex_le r hr0 hr1 (i * g) (i * g + g - 1) (by omega)
        omega
    rw [slice_set prev _ (i * g) K g hKb.1, ← htar]
    apply listMax_map_set_eq
    · rw [slice_length prev (i * g) g hmul']
      omega
    · show max tgt (max (prev.getD K default).«open» (prev.getD K default).close) = tgt
      exact max_eq_left (le_trans (hbody K hKb.1 hKb.2) hfloor_le_tgt)
    · intro d hd
      obtain ⟨j, hj1, hj2, hj3⟩ := (mem_slice_iff prev (i * g) g hmul' d).mp hd
      have hdg : d = prev.getD j default := by
        rw [get?_eq_some_getD prev j (by omega)] at hj3
        exact (Option.some.inj hj3).symm
      rw [hdg]
      exact le_trans (hhigh j hj1 hj2) hbr
  · rw [if_neg hbr]
    set out1 := clampHighs tgt (List.range' (i * g) g) prev with hout1
    have hlen1 : out1.length = prev.length := by
      rw [hout1]
      exact length_clampHighs tgt _ prev
    have hgetD1 : ∀ j, i * g ≤ j → j < i * g + g →
        out1.getD j default = { prev.getD j default with
          high := max (max (prev.getD j default).«open» (prev.getD j default).close)
            (min (prev.getD j default).high tgt) } := by
      intro j hj1 hj2
      rw [hout1, List.getD_eq_getD_get?,
        clampHighs_get?_mem tgt _ prev j (List.nodup_range' _ _)
          (List.mem_range'_1.mpr ⟨hj1, by omega⟩) (by omega)]
      rfl
    set candidates := (List.range' (i * g) g).filter
      (fun j => max (out1.getD j default).«open» (out1.getD j default).close ≤ tgt)
      with hcand
    have hsmem : i * g ∈ candidates := by
      rw [hcand]
      apply List.mem_filter.mpr
      refine ⟨List.mem_range'_1.mpr ⟨le_refl _, by omega⟩, ?_⟩
      apply decide_eq_true
      rw [hgetD1 (i * g) (le_refl _) (by omega)]
      show max (prev.getD (i * g) default).«open»
        (prev.getD (i * g) default).close ≤ tgt
      exact le_trans (hbody (i * g) (le_refl _) (by omega)) hfloor_le_tgt
    have hcne : candidates.length ≠ 0 := by
      have := List.length_pos.mpr (List.ne_nil_of_mem hsmem)
      omega
    rw [if_pos hcne]
    set K := candidates.getD (randIndex r 0 (candidates.length - 1)) 0 with hKdef
    have hKmem : K ∈ candidates := by
      rw [hKdef]
      exact getD_randIndex_mem candidates r hr0 hr1 (List.ne_nil_of_mem hsmem)
    rw [hcand] at hKmem
    have hKf := List.mem_filter.mp hKmem
    have hKrange := List.mem_range'_1.mp hKf.1
    have hKb : i * g ≤ K ∧ K < i * g + g := by omega
    have hKpred : max (out1.getD K default).«open» (out1.getD K default).close ≤ tgt :=
      of_decide_eq_true hKf.2
    rw [slice_set out1 _ (i * g) K g hKb.1, ← htar]
    apply listMax_map_set_eq
    · rw [slice_length out1 (i * g) g (by omega)]
      omega
    · show max (max (out1.getD K default).«open» (out1.getD K default).close) tgt = tgt
      exact max_eq_right hKpred
    · intro d hd
      obtain ⟨j, hj1, hj2, hj3⟩ :=
        (mem_slice_iff out1 (i * g) g (by omega) d).mp hd
      have hdg : d = out1.getD j default := by
        rw [get?_eq_some_getD out1 j (by omega)] at hj3
        exact (Option.some.inj hj3).symm
      rw [hdg, hgetD1 j hj1 hj2]
      show max (max (prev.getD j default).«open» (prev.getD j default).close)
        (min (prev.getD j default).high tgt) ≤ tgt
      exact max_le (le_trans (hbody j hj1 hj2) hfloor_le_tgt) (min_le_right _ _)

/-- The low edit makes the minimum low over the edited complete group equal
to the clamped target `min T ceilLow`. -/
lemma applyEdit_low_agg (prev : List Candle) (g i : ℕ) (T r : ℚ)
    (hinv : ∀ c ∈ prev, c.inv) (hg : 2 ≤ g) (hi : i < prev.length / g)
    (hr0 : 0 ≤ r) (hr1 : r < 1) :
    listMin ((((applyEditToGroup g r prev i DragField.low T).drop (i * g)).take
        g).map Candle.low) =
      min T (listMin (((prev.drop (i * g)).take g).map
        fun c => min c.«open» c.close)) := by
  have hg0 : 0 < g := by omega
  have hmul : (i + 1) * g ≤ prev.length := (Nat.le_div_iff_mul_le hg0).mp (by omega)
  have hmul' : i * g + g ≤ prev.length := by
    calc i * g + g = (i + 1) * g := by ring
    _ ≤ prev.length := hmul
  have hs : i * g < prev.length := by omega
  simp only [applyEditToGroup]
  rw [if_neg (by omega : ¬ g ≤ 1), if_neg (by omega : ¬ prev.length ≤ i * g)]
  rw [show min (prev.length - 1) (i * g + g - 1) = i * g + g - 1 from by omega]
  rw [show i * g + g - 1 + 1 - i * g = g from by omega]
  set ceilL := listMin (((prev.drop (i * g)).take g).map
    fun c => min c.«open» c.close) with hceil
  set tgt := if ceilL < T then ceilL else T with htgt
  set aggL := listMin (((prev.drop (i * g)).take g).map Candle.low) with haggL
  have htar : tgt = min T ceilL := by
    rw [htgt]
    by_cases hc : ceilL < T
    · rw [if_pos hc, min_eq_right hc.le]
    · rw [if_neg hc, min_eq_left (not_lt.mp hc)]
  have htgt_le_ceil : tgt ≤ ceilL := by
    rw [htar]
    exact min_le_right _ _
  have hbody : ∀ j, i * g ≤ j → j < i * g + g →
      ceilL ≤ min (prev.getD j default).«open» (prev.getD j default).close := by
    intro j hj1 hj2
    apply listMin_le
    refine List.mem_map.mpr ⟨prev.getD j default, ?_, rfl⟩
    exact (mem_slice_iff prev (i * g) g hmul' _).mpr
      ⟨j, hj1, hj2, get?_eq_some_getD prev j (by omega)⟩
  have hlow : ∀ j, i * g ≤ j → j < i * g + g →
      aggL ≤ (prev.getD j default).low := by
    intro j hj1 hj2
    apply listMin_le
    refine List.mem_map.mpr ⟨prev.getD j default, ?_, rfl⟩
    exact (mem_slice_iff prev (i * g) g hmul' _).mpr
      ⟨j, hj1, hj2, get?_eq_some_getD prev j (by omega)⟩
  by_cases hbr : tgt ≤ aggL
  · rw [if_pos hbr]
    set minIdxs := (List.range' (i * g) g).filter
      (fun j => (prev.getD j default).low = aggL) with hminIdxs
    set K := if minIdxs.length ≠ 0
      then minIdxs.getD (randIndex r 0 (minIdxs.length - 1)) 0
      else randIndex r (i * g) (i * g + g - 1) with hKdef
    have hKb : i * g ≤ K ∧ K < i * g + g := by
      rw [hKdef]
      by_cases hml : minIdxs.length ≠ 0
      · rw [if_pos hml]
        have hmem := getD_randIndex_mem minIdxs r hr0 hr1
          (fun hnil => hml (by rw [hnil]; rfl))
        have hsub : minIdxs ⊆ List.range' (i * g) g := by
          rw [hminIdxs]
          exact List.filter_subset' _
        have hrange := List.mem_range'_1.mp (hsub hmem)
        omega
      · rw [if_neg hml]
        have := randIndex_le r hr0 hr1 (i * g) (i * g + g - 1) (by omega)
        omega
    rw [slice_set prev _ (i * g) K g hKb.1, ← htar]
    apply listMin_map_set_eq
    · rw [slice_length prev (i * g) g hmul']
      omega
    · show min tgt (min (prev.getD K default).«open» (prev.getD K default).close) = tgt
      exact min_eq_left (le_trans htgt_le_ceil (hbody K hKb.1 hKb.2))
    · intro d hd
      obtain ⟨j, hj1, hj2, hj3⟩ := (mem_slice_iff prev (i * g) g hmul' d).mp hd
      have hdg : d = prev.getD j default := by
        rw [get?_eq_some_getD prev j (by omega)] at hj3
        exact (Option.some.inj hj3).symm
      rw [hdg]
      exact le_trans hbr (hlow j hj1 hj2)
  · rw [if_neg hbr]
    set out1 := raiseLows tgt (List.range' (i * g) g) prev with hout1
    have hlen1 : out1.length = prev.length := by
      rw [hout1]
      exact length_raiseLows tgt _ prev
    have hgetD1 : ∀ j, i * g ≤ j → j < i * g + g →
        out1.getD j default = { prev.getD j default with
          low := min (min (prev.getD j default).«open» (prev.getD j default).close)
            (max (prev.getD j default).low tgt) } := by
      intro j hj1 hj2
      rw [hout1, List.getD_eq_getD_get?,
        raiseLows_get?_mem tgt _ prev j (List.nodup_range' _ _)
          (List.mem_range'_1.mpr ⟨hj1, by omega⟩) (by omega)]
      rfl
    set candidates := (List.range' (i * g) g).filter
      (fun j => tgt ≤ min (out1.getD j default).«open» (out1.getD j default).close)
      with hcand
    have hsmem : i * g ∈ candidates := by
      rw [hcand]
      apply List.mem_filter.mpr
      refine ⟨List.mem_range'_1.mpr ⟨le_refl _, by omega⟩, ?_⟩
      apply decide_eq_true
      rw [hgetD1 (i * g) (le_refl _) (by omega)]
      show tgt ≤ min (prev.getD (i * g) default).«open»
        (prev.getD (i * g) default).close
      exact le_trans htgt_le_ceil (hbody (i * g) (le_refl _) (by omega))
    have hcne : candidates.length ≠ 0 := by
      have := List.length_pos.mpr (List.ne_nil_of_mem hsmem)
      omega
    rw [if_pos hcne]
    set K := candidates.getD (randIndex r 0 (candidates.length - 1)) 0 with hKdef
    have hKmem : K ∈ candidates := by
      rw [hKdef]
      exact getD_randIndex_mem candidates r hr0 hr1 (List.ne_nil_of_mem hsmem)
    rw [hcand] at hKmem
    have hKf := List.mem_filter.mp hKmem
    have hKrange := List.mem_range'_1.mp hKf.1
    have hKb : i * g ≤ K ∧ K < i * g + g := by omega
    have hKpred : tgt ≤ min (out1.getD K default).«open» (out1.getD K default).close :=
      of_decide_eq_true hKf.2
    rw [slice_set out1 _ (i * g) K g hKb.1, ← htar]
    apply listMin_map_set_eq
    · rw [slice_length out1 (i * g) g (by omega)]
      omega
    · show min (min (out1.getD K default).«open» (out1.getD K default).close) tgt = tgt
      exact min_eq_right hKpred
    · intro d hd
      obtain ⟨j, hj1, hj2, hj3⟩ :=
        (mem_slice_iff out1 (i * g) g (by omega) d).mp hd
      have hdg : d = out1.getD j default := by
        rw [get?_eq_some_getD out1 j (by omega)] at hj3
        exact (Option.some.inj hj3).symm
      rw [hdg, hgetD1 j hj1 hj2]
      show tgt ≤ min (min (prev.getD j default).«open» (prev.getD j default).close)
        (max (prev.getD j default).low tgt)
      exact le_min (le_trans htgt_le_ceil (hbody j hj1 hj2)) (le_max_right _ _)

/-- **C2.** For every base sequence of invariant-satisfying bars, granularity
`g ≥ 2`, in-range complete group index `i`, target `T` and tie-break draw
`r ∈ [0, 1)`: after editing the aggregate high (resp. low), re-aggregating
yields an aggregate high (resp. low) equal to `T` when `T` is feasible
(`T ≥ floor = max over the group of max(open, close)`, resp.
`T ≤ ceiling = min over the group of min(open, close)`) and equal to the
clamped boundary value otherwise — i.e. `max T floor` (resp. `min T ceiling`)
— and every bar of the result still satisfies its own ordering invariant. -/
theorem aggregate_high_low_round_trip (prev : List Candle) (g i : ℕ) (T r : ℚ)
    (hinv : ∀ c ∈ prev, c.inv) (hg : 2 ≤ g) (hi : i < prev.length / g)
    (hr0 : 0 ≤ r) (hr1 : r < 1) :
    ((aggregate (applyEditToGroup g r prev i DragField.high T) g).getD i
        default).high =
      max T (listMax (((prev.drop (i * g)).take g).map
        fun c => max c.«open» c.close)) ∧
    ((aggregate (applyEditToGroup g r prev i DragField.low T) g).getD i
        default).low =
      min T (listMin (((prev.drop (i * g)).take g).map
        fun c => min c.«open» c.close)) ∧
    (∀ c ∈ applyEditToGroup g r prev i DragField.high T, c.inv) ∧
    (∀ c ∈ applyEditToGroup g r prev i DragField.low T, c.inv) := by
  refine ⟨?_, ?_, applyEditToGroup_inv _ _ _ _ _ _ hinv,
    applyEditToGroup_inv _ _ _ _ _ _ hinv⟩
  · rw [aggregate_high_getD _ g i hg
      (by rw [length_applyEditToGroup]; exact hi)]
    exact applyEdit_high_agg prev g i T r hinv hg hi hr0 hr1
  · rw [aggregate_low_getD _ g i hg
      (by rw [length_applyEditToGroup]; exact hi)]
    exact applyEdit_low_agg prev g i T r hinv hg hi hr0 hr1

/-- Witness for `aggregate_high_low_round_trip`: two base bars, `g = 2`,
group `0`, target `5`, tie-break draw `r = 0`. -/
theorem aggregate_high_low_round_trip_witness :
    ((aggregate (applyEditToGroup 2 0 [⟨0, 1, 2, 0, 1⟩, ⟨1, 1, 2, 0, 1⟩] 0
        DragField.high 5) 2).getD 0 default).high =
      max 5 (listMax ((([(⟨0, 1, 2, 0, 1⟩ : Candle), ⟨1, 1, 2, 0, 1⟩].drop
        (0 * 2)).take 2).map fun c => max c.«open» c.close)) ∧
    ((aggregate (applyEditToGroup 2 0 [⟨0, 1, 2, 0, 1⟩, ⟨1, 1, 2, 0, 1⟩] 0
        DragField.low 5) 2).getD 0 default).low =
      min 5 (listMin ((([(⟨0, 1, 2, 0, 1⟩ : Candle), ⟨1, 1, 2, 0, 1⟩].drop
        (0 * 2)).take 2).map fun c => min c.«open» c.close)) ∧
    (∀ c ∈ applyEditToGroup 2 0 [⟨0, 1, 2, 0, 1⟩, ⟨1, 1, 2, 0, 1⟩] 0
      DragField.high 5, c.inv) ∧
    (∀ c ∈ applyEditToGroup 2 0 [⟨0, 1, 2, 0, 1⟩, ⟨1, 1, 2, 0, 1⟩] 0
      DragField.low 5, c.inv) :=
  aggregate_high_low_round_trip [⟨0, 1, 2, 0, 1⟩, ⟨1, 1, 2, 0, 1⟩] 2 0 5 0
    (by intro c hc
        rcases List.mem_cons.mp hc with h | h
        · subst h; constructor <;> norm_num [Candle.inv]
        · rcases List.mem_cons.mp h with h1 | h1
          · subst h1; constructor <;> norm_num [Candle.inv]
          · simp at h1)
    (by norm_num) (by norm_num) le_rfl (by norm_num)

end IndicatorPlayground
